import Mathlib

/-!
Verification of the transactional block storage engine (package tables,
dataBlock) of this repository.  The Go source is shallowly embedded:
machine integers become Nat/Int, Go float64 score arithmetic is embedded
exactly over the rationals, fallible operations return Option/Except, and
the mutable block is explicit state passing over plain structures.
-/

namespace Tables

/-- Abstract error kinds of the engine (data.ErrNotFound,
data.ErrPossibleDuplicate, txnif.TxnWWConflictErr, ...). -/
inductive Err where
  | NotFound
  | PossibleDuplicate
  | Duplicate
  | WWConflict
  | TxnInternal
  | IOErr
  deriving DecidableEq, Repr

/-- Observable state of a dataBlock as used by the scoring and compaction
driver: blk.meta.IsAppendable(), blk.Rows(nil, true),
blk.meta.GetSchema().BlockMaxRows, blk.mvcc.GetChangeNodeCnt(), the
per-column blk.mvcc.GetColumnUpdateCnt(i) (one list entry per schema
column), blk.mvcc.GetDeleteCnt(), blk.mvcc.LoadMaxVisible(), blk.ckpTs,
blk.nice, and the catalog meta flags consulted by EstimateScore and
BuildCompactionTaskFactory. -/
structure BlockState where
  appendable : Bool
  rows : Nat
  blockMaxRows : Nat
  changeNodeCnt : Nat
  colUpdateCnts : List Nat
  deleteCnt : Nat
  maxVisible : Nat
  ckpTs : Nat
  nice : Nat
  droppedCommitted : Bool
  droppedUncommitted : Bool
  hasActiveTxn : Bool
  id : Nat
  deriving DecidableEq, Repr

/-- Go's int(f) conversion truncates toward zero: floor for nonnegative
values and ceiling for negative ones.  This is the exact rational
counterpart of the conversion. -/
def truncQ (q : ℚ) : ℤ := if 0 ≤ q then ⌊q⌋ else ⌈q⌉

/-- Per-column factor adjustment of dataBlock.estimateRawScore, embedded
from the source branch for branch: colFactor < 0.005 multiplies by 10,
0.005 <= colFactor < 0.10 by 20, colFactor >= 0.10 by 40. -/
def colPiece (r : ℚ) : ℚ :=
  if r < 1/200 then r * 10
  else if 1/200 ≤ r ∧ r < 1/10 then r * 20
  else if 1/10 ≤ r then r * 40
  else r

/-- Embedding of dataBlock.estimateRawScore.  The float64 arithmetic of
the source is carried out exactly in the rationals; the final Go int
conversion is truncation toward zero (truncQ). -/
def estimateRawScore (b : BlockState) : ℤ :=
  if b.rows = b.blockMaxRows ∧ b.appendable then 100
  else if b.changeNodeCnt = 0 ∧ ¬b.appendable then 0
  else if b.changeNodeCnt = 0 ∧ b.appendable ∧ b.maxVisible ≤ b.ckpTs then 0
  else
    let rows : ℚ := (b.rows : ℚ)
    let cols : ℚ := (b.colUpdateCnts.length : ℚ)
    let factor : ℚ :=
      ((b.colUpdateCnts.map (fun (cnt : ℕ) => colPiece ((cnt : ℚ) / rows))).sum) / cols
      + (b.deleteCnt : ℚ) / rows * 50
    let ret : ℤ := truncQ (factor * 100)
    if ret = 0 then ret + 1 else ret

/-- The piecewise function exactly as the spec words it: 10·r for
r < 0.5 percent, 20·r for 0.5 percent <= r < 10 percent, 40·r above. -/
def specPiece (r : ℚ) : ℚ :=
  if r < 1/200 then 10 * r
  else if r < 1/10 then 20 * r
  else 40 * r

/-- The factor exactly as the spec words it: mean over columns of
specPiece of the column update ratio, plus deleteRatio times 50. -/
def specFactor (b : BlockState) : ℚ :=
  ((b.colUpdateCnts.map (fun (cnt : ℕ) => specPiece ((cnt : ℚ) / (b.rows : ℚ)))).sum)
      / (b.colUpdateCnts.length : ℚ)
    + (b.deleteCnt : ℚ) / (b.rows : ℚ) * 50

/-- The raw score exactly as the claim words it, with rounding:
max(1, round(factor × 100)) in the non-trivial branch. -/
def specRawScoreRound (b : BlockState) : ℤ :=
  if b.rows = b.blockMaxRows ∧ b.appendable then 100
  else if b.changeNodeCnt = 0 ∧ ¬b.appendable then 0
  else if b.changeNodeCnt = 0 ∧ b.appendable ∧ b.maxVisible ≤ b.ckpTs then 0
  else max 1 (round (specFactor b * 100))

/-- Embedding of dataBlock.RunCalibration: recompute the raw score and
bump nice by one unless the raw score is zero. -/
def RunCalibration (b : BlockState) : BlockState :=
  if estimateRawScore b = 0 then b else { b with nice := b.nice + 1 }

/-- Embedding of dataBlock.resetNice. -/
def resetNice (b : BlockState) : BlockState := { b with nice := 0 }

/-- Embedding of dataBlock.EstimateScore, returning both the score and
the resulting block state (the source mutates nice in place). -/
def EstimateScoreSt (b : BlockState) : ℤ × BlockState :=
  if b.appendable ∧ b.rows = b.blockMaxRows then
    if b.droppedCommitted ∨ b.droppedUncommitted then (0, b) else (100, b)
  else
    let score := estimateRawScore b
    if score = 0 then (0, resetNice b)
    else (score + (b.nice : ℤ), b)

/-- The score returned by dataBlock.EstimateScore. -/
def EstimateScore (b : BlockState) : ℤ := (EstimateScoreSt b).1

/-- Compaction task variants chosen by BuildCompactionTaskFactory. -/
inductive TaskKind where
  | CompactBlock
  | CompactABlock
  deriving DecidableEq, Repr

/-- Embedding of dataBlock.BuildCompactionTaskFactory: refuse (no factory,
empty scope) if the meta is dropped-committed or carries an active txn;
otherwise pick CompactBlock for non-appendable or full appendable blocks
and CompactABlock for the remaining appendable ones, with scope equal to
the singleton of this block id. -/
def BuildCompactionTaskFactory (b : BlockState) : Option TaskKind × List Nat :=
  if b.droppedCommitted ∨ b.hasActiveTxn then (none, [])
  else
    let factory : Option TaskKind :=
      if ¬b.appendable ∨ (b.appendable ∧ b.rows = b.blockMaxRows) then
        some TaskKind.CompactBlock
      else if b.appendable then some TaskKind.CompactABlock
      else none
    (factory, [b.id])

end Tables


namespace Tables

/-- The piecewise adjustment of the source agrees pointwise with the one
written in the spec. -/
lemma colPiece_eq_specPiece (r : ℚ) : colPiece r = specPiece r := by
  unfold colPiece specPiece
  by_cases h1 : r < 1/200
  · rw [if_pos h1, if_pos h1]; ring
  · by_cases h2 : r < 1/10
    · have h1' : 1/200 ≤ r := le_of_not_lt h1
      rw [if_neg h1, if_neg h1, if_pos ⟨h1', h2⟩, if_pos h2]; ring
    · have h3 : 1/10 ≤ r := le_of_not_lt h2
      have h2' : ¬((1:ℚ)/200 ≤ r ∧ r < 1/10) := fun hh => h2 hh.2
      rw [if_neg h1, if_neg h1, if_neg h2', if_pos h3, if_neg h2]; ring

lemma specPiece_nonneg {r : ℚ} (hr : 0 ≤ r) : 0 ≤ specPiece r := by
  unfold specPiece; split_ifs <;> linarith

lemma specFactor_nonneg (b : BlockState) : 0 ≤ specFactor b := by
  unfold specFactor
  have hsum : 0 ≤ (b.colUpdateCnts.map
      fun (cnt : ℕ) => specPiece ((cnt : ℚ) / (b.rows : ℚ))).sum := by
    apply List.sum_nonneg
    intro x hx
    obtain ⟨c, _, rfl⟩ := List.mem_map.mp hx
    exact specPiece_nonneg (div_nonneg (Nat.cast_nonneg c) (Nat.cast_nonneg _))
  have h1 : 0 ≤ (b.colUpdateCnts.map
      fun (cnt : ℕ) => specPiece ((cnt : ℚ) / (b.rows : ℚ))).sum
        / (b.colUpdateCnts.length : ℚ) := div_nonneg hsum (Nat.cast_nonneg _)
  have h2 : (0:ℚ) ≤ (b.deleteCnt : ℚ) / (b.rows : ℚ) * 50 := by positivity
  linarith

lemma truncQ_nonneg {q : ℚ} (h : 0 ≤ q) : 0 ≤ truncQ q := by
  unfold truncQ
  rw [if_pos h]
  exact Int.floor_nonneg.mpr h

lemma ifz_eq_max {n : ℤ} (hn : 0 ≤ n) : (if n = 0 then n + 1 else n) = max 1 n := by
  by_cases h : n = 0
  · simp [h]
  · rw [if_neg h]
    omega

end Tables

namespace Tables

/-- C2 counterexample: the claim says the non-trivial branch returns
max(1, round(factor × 100)), but the source converts with Go int()
truncation toward zero.  On an appendable block of 3 rows with one
delete and no column updates the factor is 50/3, so factor × 100 is
5000/3: the source returns 1666 while the claim's formula gives 1667. -/
theorem estimateRawScore_round_cex :
    estimateRawScore ⟨true, 3, 4, 1, [0], 1, 5, 0, 0, false, false, false, 7⟩ = 1666 ∧
    specRawScoreRound ⟨true, 3, 4, 1, [0], 1, 5, 0, 0, false, false, false, 7⟩ = 1667 := by
  constructor
  · norm_num [estimateRawScore, colPiece, truncQ]
  · norm_num [specRawScoreRound, specFactor, specPiece, round_eq]

/-- C2 (amended): rawScore returns 100 when the block is appendable with
row count equal to blockMaxRows; 0 when it is immutable with no changes,
or appendable and not full with maxVisible ≤ ckpTs and no changes; and
otherwise max(1, t) where t is factor × 100 truncated toward zero (the Go
int conversion), with factor the mean over columns of the piecewise
update ratio plus deleteRatio × 50.  The hypotheses delimit the domain on
which the exact rational embedding of the float64 arithmetic is faithful
(no division by zero). -/
theorem estimateRawScore_cases (b : BlockState)
    (hrows : 0 < b.rows) (hcols : b.colUpdateCnts ≠ []) :
    (b.rows = b.blockMaxRows ∧ b.appendable = true → estimateRawScore b = 100) ∧
    (b.changeNodeCnt = 0 → b.appendable = false → estimateRawScore b = 0) ∧
    (b.changeNodeCnt = 0 → b.appendable = true → b.rows ≠ b.blockMaxRows →
      b.maxVisible ≤ b.ckpTs → estimateRawScore b = 0) ∧
    (¬(b.rows = b.blockMaxRows ∧ b.appendable = true) →
      ¬(b.changeNodeCnt = 0 ∧ b.appendable = false) →
      ¬(b.changeNodeCnt = 0 ∧ b.appendable = true ∧ b.maxVisible ≤ b.ckpTs) →
      estimateRawScore b = max 1 (truncQ (specFactor b * 100))) := by
  refine ⟨?_, ?_, ?_, ?_⟩
  · intro h
    rw [estimateRawScore, if_pos h]
  · intro hc ha
    rw [estimateRawScore, if_neg (by simp [ha]), if_pos (by simp [ha, hc])]
  · intro hc ha hfull hts
    rw [estimateRawScore, if_neg (by simp [hfull]), if_neg (by simp [ha]),
      if_pos ⟨hc, by simp [ha], hts⟩]
  · intro h1 h2 h3
    rw [estimateRawScore, if_neg ?_, if_neg ?_, if_neg ?_]
    · simp only [colPiece_eq_specPiece]
      have hnn : 0 ≤ truncQ (specFactor b * 100) :=
        truncQ_nonneg (mul_nonneg (specFactor_nonneg b) (by norm_num))
      exact ifz_eq_max hnn
    · exact fun hh => h3 ⟨hh.1, hh.2.1, hh.2.2⟩
    · exact fun hh => h2 ⟨hh.1, by simpa using hh.2⟩
    · exact fun hh => h1 ⟨hh.1, hh.2⟩

/-- C2 witness: the amended statement applied to a concrete block in the
non-trivial branch. -/
theorem estimateRawScore_cases_witness :
    estimateRawScore ⟨true, 3, 4, 1, [0], 1, 5, 0, 0, false, false, false, 7⟩ =
      max 1 (truncQ (specFactor ⟨true, 3, 4, 1, [0], 1, 5, 0, 0, false, false, false, 7⟩ * 100)) :=
  (estimateRawScore_cases _ (by norm_num) (by simp)).2.2.2
    (by norm_num) (by norm_num) (by norm_num)

/-- C9 counterexample: at a column update ratio of exactly 0.005 the
piecewise adjustment of estimateRawScore does not apply the first
branch's multiplier 10·r. -/
theorem colPiece_boundary_cex : colPiece (1/200) ≠ 10 * (1/200 : ℚ) := by
  norm_num [colPiece]

/-- C9 (amended): at a column update ratio of exactly 0.005 the second
branch's multiplier 20·r applies, because the first branch's guard is
the strict comparison colFactor < 0.005. -/
theorem colPiece_boundary : colPiece (1/200) = 20 * (1/200 : ℚ) := by
  norm_num [colPiece]

end Tables

namespace Tables

/-- C10: a full appendable block whose metadata is dropped (committed or
uncommitted) is scored 0 by EstimateScore, while the same full appendable
block with live metadata is scored exactly 100. -/
theorem estimateScore_full_dropped (b : BlockState)
    (happ : b.appendable = true) (hfull : b.rows = b.blockMaxRows) :
    ((b.droppedCommitted = true ∨ b.droppedUncommitted = true) → EstimateScore b = 0) ∧
    (b.droppedCommitted = false → b.droppedUncommitted = false → EstimateScore b = 100) := by
  constructor
  · intro h
    rw [EstimateScore, EstimateScoreSt, if_pos ⟨by simp [happ], hfull⟩,
      if_pos (by rcases h with h | h <;> simp [h])]
  · intro h1 h2
    rw [EstimateScore, EstimateScoreSt, if_pos ⟨by simp [happ], hfull⟩,
      if_neg (by simp [h1, h2])]

/-- C10 witness: both cases of the theorem applied to a concrete full
appendable block. -/
theorem estimateScore_full_dropped_witness :
    EstimateScore ⟨true, 4, 4, 0, [0], 0, 0, 0, 0, true, false, false, 3⟩ = 0 ∧
    EstimateScore ⟨true, 4, 4, 0, [0], 0, 0, 0, 0, false, false, false, 3⟩ = 100 :=
  ⟨(estimateScore_full_dropped _ rfl rfl).1 (Or.inl rfl),
   (estimateScore_full_dropped _ rfl rfl).2 rfl rfl⟩

/-- C6: the age adder nice is incremented by one on each calibration tick
with non-zero raw score and left alone otherwise; EstimateScore resets it
to zero whenever it computes the score while the raw score is zero; the
effective score is rawScore + nice whenever the raw score is non-zero and
the block is not full appendable; and a full non-dropped appendable block
scores exactly 100. -/
theorem nice_aging_spec :
    (∀ b : BlockState, estimateRawScore b ≠ 0 → (RunCalibration b).nice = b.nice + 1) ∧
    (∀ b : BlockState, estimateRawScore b = 0 → (RunCalibration b).nice = b.nice) ∧
    (∀ b : BlockState, estimateRawScore b = 0 → ((EstimateScoreSt b).2).nice = 0) ∧
    (∀ b : BlockState, estimateRawScore b ≠ 0 →
      ¬(b.appendable = true ∧ b.rows = b.blockMaxRows) →
      EstimateScore b = estimateRawScore b + (b.nice : ℤ)) ∧
    (∀ b : BlockState, b.appendable = true → b.rows = b.blockMaxRows →
      b.droppedCommitted = false → b.droppedUncommitted = false →
      EstimateScore b = 100) := by
  refine ⟨?_, ?_, ?_, ?_, ?_⟩
  · intro b h
    rw [RunCalibration, if_neg h]
  · intro b h
    rw [RunCalibration, if_pos h]
  · intro b h
    have hnotfull : ¬(b.appendable = true ∧ b.rows = b.blockMaxRows) := by
      intro hh
      rw [estimateRawScore, if_pos ⟨hh.2, by simp [hh.1]⟩] at h
      exact absurd h (by norm_num)
    rw [EstimateScoreSt, if_neg (by exact fun hh => hnotfull ⟨by simpa using hh.1, hh.2⟩)]
    simp only [h, if_pos rfl]
    rfl
  · intro b h hnotfull
    rw [EstimateScore, EstimateScoreSt,
      if_neg (by exact fun hh => hnotfull ⟨by simpa using hh.1, hh.2⟩)]
    simp only [if_neg h]
  · intro b happ hfull h1 h2
    rw [EstimateScore, EstimateScoreSt, if_pos ⟨by simp [happ], hfull⟩,
      if_neg (by simp [h1, h2])]

/-- C6 witness: the conjuncts applied to concrete blocks (an active
appendable block with one change for the non-zero cases, an immutable
block without changes for the zero cases, a full appendable block for the
last case). -/
theorem nice_aging_spec_witness :
    (RunCalibration ⟨true, 3, 4, 1, [0], 1, 5, 0, 2, false, false, false, 7⟩).nice = 3 ∧
    (RunCalibration ⟨false, 3, 4, 0, [0], 0, 5, 0, 2, false, false, false, 7⟩).nice = 2 ∧
    ((EstimateScoreSt ⟨false, 3, 4, 0, [0], 0, 5, 0, 2, false, false, false, 7⟩).2).nice = 0 ∧
    EstimateScore ⟨true, 3, 4, 1, [0], 1, 5, 0, 2, false, false, false, 7⟩ =
      estimateRawScore ⟨true, 3, 4, 1, [0], 1, 5, 0, 2, false, false, false, 7⟩ + 2 ∧
    EstimateScore ⟨true, 4, 4, 0, [0], 0, 0, 0, 2, false, false, false, 7⟩ = 100 := by
  have hnz : estimateRawScore ⟨true, 3, 4, 1, [0], 1, 5, 0, 2, false, false, false, 7⟩ ≠ 0 := by
    norm_num [estimateRawScore, colPiece, truncQ]
  have hz : estimateRawScore ⟨false, 3, 4, 0, [0], 0, 5, 0, 2, false, false, false, 7⟩ = 0 := by
    norm_num [estimateRawScore]
  refine ⟨nice_aging_spec.1 _ hnz, nice_aging_spec.2.1 _ hz, nice_aging_spec.2.2.1 _ hz,
    nice_aging_spec.2.2.2.1 _ hnz (by norm_num), nice_aging_spec.2.2.2.2 _ rfl rfl rfl rfl⟩

/-- C5: BuildCompactionTaskFactory returns no factory when the metadata
is dropped-committed or has an active transaction; otherwise it returns a
CompactBlock factory for non-appendable or full appendable blocks and a
CompactABlock factory for the remaining appendable blocks, in both cases
with scope exactly this block's id. -/
theorem buildCompactionTaskFactory_spec (b : BlockState) :
    ((b.droppedCommitted = true ∨ b.hasActiveTxn = true) →
      BuildCompactionTaskFactory b = (none, [])) ∧
    (b.droppedCommitted = false → b.hasActiveTxn = false →
      ((b.appendable = false ∨ b.rows = b.blockMaxRows) →
        BuildCompactionTaskFactory b = (some TaskKind.CompactBlock, [b.id])) ∧
      (b.appendable = true → b.rows ≠ b.blockMaxRows →
        BuildCompactionTaskFactory b = (some TaskKind.CompactABlock, [b.id]))) := by
  constructor
  · intro h
    rw [BuildCompactionTaskFactory, if_pos (by rcases h with h | h <;> simp [h])]
  · intro h1 h2
    constructor
    · intro h
      rw [BuildCompactionTaskFactory, if_neg (by simp [h1, h2])]
      rcases h with h | h
      · simp [h]
      · by_cases ha : b.appendable = true
        · simp [h, ha]
        · simp [h, ha]
    · intro ha hfull
      rw [BuildCompactionTaskFactory, if_neg (by simp [h1, h2])]
      simp [ha, hfull]

/-- C5 witness: the three cases at concrete blocks. -/
theorem buildCompactionTaskFactory_spec_witness :
    BuildCompactionTaskFactory ⟨true, 3, 4, 0, [0], 0, 0, 0, 0, true, false, false, 9⟩ =
      (none, []) ∧
    BuildCompactionTaskFactory ⟨false, 3, 4, 0, [0], 0, 0, 0, 0, false, false, false, 9⟩ =
      (some TaskKind.CompactBlock, [9]) ∧
    BuildCompactionTaskFactory ⟨true, 3, 4, 0, [0], 0, 0, 0, 0, false, false, false, 9⟩ =
      (some TaskKind.CompactABlock, [9]) :=
  ⟨(buildCompactionTaskFactory_spec _).1 (Or.inl rfl),
   ((buildCompactionTaskFactory_spec _).2 rfl rfl).1 (Or.inl rfl),
   ((buildCompactionTaskFactory_spec _).2 rfl rfl).2 rfl (by norm_num)⟩

end Tables

namespace Tables

/-- An update node of a column chain: the row offset it covers, the new
value, the commit timestamp (0 while uncommitted), whether it is
committed, the owning transaction identity, and whether that transaction
aborted. -/
structure UpdateEntry where
  row : Nat
  val : Int
  commitTs : Nat
  committed : Bool
  txnId : Nat
  aborted : Bool
  deriving DecidableEq, Repr

/-- A delete node of the block's delete chain: the row offsets it covers,
commit timestamp, committed flag, owning transaction, aborted flag. -/
structure DeleteEntry where
  rows : List Nat
  commitTs : Nat
  committed : Bool
  txnId : Nat
  aborted : Bool
  deriving DecidableEq, Repr

/-- Modelled from the spec: DeleteChain.IsDeleted of the updates package
(not under src/): a row is deleted at T iff some committed delete node
with commit ts ≤ T covers it. -/
def isDeleted (dels : List DeleteEntry) (row ts : Nat) : Bool :=
  dels.any fun d => d.committed && decide (d.commitTs ≤ ts) && d.rows.contains row

/-- An update entry is visible at ts on a row when it is committed with
commit ts ≤ ts and covers the row. -/
def updVisible (ts row : Nat) (e : UpdateEntry) : Bool :=
  e.committed && decide (e.commitTs ≤ ts) && e.row == row

/-- Modelled from the spec: ColumnChain.GetValueLocked of the updates
package (not under src/): among the committed update nodes with commit
ts ≤ ts that cover the row, the one with the greatest commit timestamp. -/
def pickMax (row ts : Nat) : List UpdateEntry → Option UpdateEntry
  | [] => none
  | e :: rest =>
    if updVisible ts row e then
      match pickMax row ts rest with
      | none => some e
      | some b => if b.commitTs < e.commitTs then some e else some b
    else pickMax row ts rest

/-- The tail of an appendable PK index: active map plus tombstones. -/
structure PkIndex where
  active : List (Int × Nat)
  tombstones : List (Int × Nat)
  deriving DecidableEq, Repr

/-- The read-relevant state of a dataBlock: mode, the in-memory buffer
columns (appendable), the on-disk column files, the per-column update
chains and the delete chain of the MVCC handle, the visibility watermark,
the checkpoint watermark and the PK index. -/
structure DataBlock where
  appendable : Bool
  bufferCols : List (List Int)
  fileCols : List (List Int)
  chains : List (List UpdateEntry)
  deletes : List DeleteEntry
  maxVisible : Nat
  ckpTs : Nat
  index : PkIndex
  deriving DecidableEq, Repr

/-- Embedding of dataBlock.GetValue: if the row is deleted at the txn's
start timestamp the result is NotFound; else the column chain is
consulted for the latest visible update; else the base column value is
read, from the buffer for appendable blocks and from the column file for
immutable blocks. -/
def GetValue (blk : DataBlock) (ts row col : Nat) : Except Err Int :=
  if isDeleted blk.deletes row ts then .error .NotFound
  else
    match pickMax row ts (blk.chains.getD col []) with
    | some e => .ok e.val
    | none =>
      .ok (((if blk.appendable then blk.bufferCols else blk.fileCols).getD col []).getD row 0)

lemma pickMax_sound {row ts : Nat} {ch : List UpdateEntry} {e : UpdateEntry}
    (h : pickMax row ts ch = some e) : e ∈ ch ∧ updVisible ts row e = true := by
  induction ch with
  | nil => simp [pickMax] at h
  | cons a rest ih =>
    by_cases hv : updVisible ts row a
    · rw [pickMax, if_pos hv] at h
      cases hr : pickMax row ts rest with
      | none =>
        rw [hr] at h
        cases h
        exact ⟨List.mem_cons_self _ _, hv⟩
      | some b =>
        rw [hr] at h
        dsimp only at h
        by_cases hlt : b.commitTs < a.commitTs
        · rw [if_pos hlt] at h
          cases h
          exact ⟨List.mem_cons_self _ _, hv⟩
        · rw [if_neg hlt] at h
          cases h
          obtain ⟨hmem, hvb⟩ := ih hr
          exact ⟨List.mem_cons_of_mem _ hmem, hvb⟩
    · rw [pickMax, if_neg hv] at h
      obtain ⟨hmem, hvb⟩ := ih h
      exact ⟨List.mem_cons_of_mem _ hmem, hvb⟩

lemma pickMax_max {row ts : Nat} {ch : List UpdateEntry} {e : UpdateEntry}
    (he : e ∈ ch) (hv : updVisible ts row e = true) :
    ∃ b, pickMax row ts ch = some b ∧ e.commitTs ≤ b.commitTs := by
  induction ch with
  | nil => cases he
  | cons a rest ih =>
    rcases List.mem_cons.mp he with rfl | hmem
    · rw [pickMax, if_pos hv]
      cases hr : pickMax row ts rest with
      | none => exact ⟨e, rfl, le_refl _⟩
      | some b =>
        dsimp only
        by_cases hlt : b.commitTs < e.commitTs
        · rw [if_pos hlt]
          exact ⟨e, rfl, le_refl _⟩
        · rw [if_neg hlt]
          exact ⟨b, rfl, le_of_not_lt hlt⟩
    · obtain ⟨b, hb, hle⟩ := ih hmem
      by_cases hva : updVisible ts row a
      · rw [pickMax, if_pos hva, hb]
        dsimp only
        by_cases hlt : b.commitTs < a.commitTs
        · rw [if_pos hlt]
          exact ⟨a, rfl, hle.trans (le_of_lt hlt)⟩
        · rw [if_neg hlt]
          exact ⟨b, rfl, hle⟩
      · rw [pickMax, if_neg hva]
        exact ⟨b, hb, hle⟩

lemma pickMax_none {row ts : Nat} {ch : List UpdateEntry}
    (h : ∀ e ∈ ch, updVisible ts row e = false) : pickMax row ts ch = none := by
  induction ch with
  | nil => rfl
  | cons a rest ih =>
    rw [pickMax, if_neg (by simp [h a (List.mem_cons_self _ _)])]
    exact ih fun e he => h e (List.mem_cons_of_mem _ he)

end Tables

namespace Tables

/-- C1: for every transaction start timestamp ts, row and column, if the
row is deleted at ts then GetValue returns NotFound; otherwise, if a
committed update on the row with commit ts ≤ ts exists whose commit
timestamp strictly dominates every other visible update on the row,
GetValue returns its value; and with no visible update at all GetValue
returns the base column value, read from the in-memory buffer for
appendable blocks and from the column file for immutable blocks. -/
theorem getValue_spec (blk : DataBlock) (ts row col : Nat) :
    (isDeleted blk.deletes row ts = true →
      GetValue blk ts row col = .error .NotFound) ∧
    (isDeleted blk.deletes row ts = false →
      ∀ e ∈ blk.chains.getD col [], updVisible ts row e = true →
        (∀ e' ∈ blk.chains.getD col [], updVisible ts row e' = true → e' ≠ e →
          e'.commitTs < e.commitTs) →
        GetValue blk ts row col = .ok e.val) ∧
    (isDeleted blk.deletes row ts = false →
      (∀ e ∈ blk.chains.getD col [], updVisible ts row e = false) →
      GetValue blk ts row col =
        .ok (((if blk.appendable then blk.bufferCols else blk.fileCols).getD
          col []).getD row 0)) := by
  refine ⟨?_, ?_, ?_⟩
  · intro hdel
    rw [GetValue, if_pos hdel]
  · intro hdel e he hv hdom
    obtain ⟨b, hb, hle⟩ := pickMax_max he hv
    obtain ⟨hbmem, hbv⟩ := pickMax_sound hb
    have hbe : b = e := by
      by_contra hne
      exact absurd hle (not_le_of_lt (hdom b hbmem hbv hne))
    rw [GetValue, if_neg (by simp [hdel]), hb, hbe]
  · intro hdel hnone
    rw [GetValue, if_neg (by simp [hdel]), pickMax_none hnone]

/-- C1 witness: the scenario of the spec's S2 at ts = 200: row 0 carries a
committed update to 11 at ts 180 and an in-flight update to 12; the
committed one wins.  The same block also witnesses the deleted case on
row 1 and the base-value case on column 1. -/
theorem getValue_spec_witness :
    GetValue ⟨true, [[10, 20]], [[1, 2]],
        [[⟨0, 11, 180, true, 3, false⟩, ⟨0, 12, 0, false, 4, false⟩]],
        [⟨[1], 220, true, 5, false⟩], 220, 0, ⟨[], []⟩⟩ 200 0 0 = .ok 11 ∧
    GetValue ⟨true, [[10, 20]], [[1, 2]],
        [[⟨0, 11, 180, true, 3, false⟩, ⟨0, 12, 0, false, 4, false⟩]],
        [⟨[1], 220, true, 5, false⟩], 220, 0, ⟨[], []⟩⟩ 250 1 0 = .error .NotFound ∧
    GetValue ⟨true, [[10, 20]], [[1, 2]],
        [[⟨0, 11, 180, true, 3, false⟩, ⟨0, 12, 0, false, 4, false⟩]],
        [⟨[1], 220, true, 5, false⟩], 220, 0, ⟨[], []⟩⟩ 200 1 1 = .ok 0 := by
  refine ⟨?_, ?_, ?_⟩
  · exact (getValue_spec _ 200 0 0).2.1 (by decide) ⟨0, 11, 180, true, 3, false⟩
      (by decide) (by decide) (by decide)
  · exact (getValue_spec _ 250 1 0).1 (by decide)
  · exact (getValue_spec _ 200 1 1).2.2 (by decide) (by decide)

end Tables

namespace Tables

/-- A transaction as the block sees it: identity and start timestamp. -/
structure Txn where
  id : Nat
  startTs : Nat
  deriving DecidableEq, Repr

/-- Modelled from the spec: the write-write conflict test shared by
MVCCHandle.CheckNotUpdated and ColumnChain.TryUpdateNodeLocked (updates
package not under src/).  An update node on the row conflicts when it is
not aborted and is either committed after the updater's start timestamp
or still in flight and owned by another transaction. -/
def wwUpdConflict (ch : List UpdateEntry) (row : Nat) (txn : Txn) : Bool :=
  ch.any fun e => e.row == row && !e.aborted &&
    (if e.committed then decide (txn.startTs < e.commitTs) else e.txnId != txn.id)

/-- Modelled from the spec: MVCCHandle.CheckNotDeleted (updates package
not under src/).  A row deleted at the updater's start timestamp yields
NotFound; a delete of the row committed later or still in flight by
another transaction yields WWConflict. -/
def checkNotDeleted (dels : List DeleteEntry) (row : Nat) (txn : Txn) : Option Err :=
  if isDeleted dels row txn.startTs then some .NotFound
  else if dels.any (fun d => !d.aborted && d.rows.contains row &&
      (if d.committed then decide (txn.startTs < d.commitTs) else d.txnId != txn.id)) then
    some .WWConflict
  else none

/-- The chain state an update works on: the per-column chains and the
delete chain of the MVCC handle. -/
structure UpdState where
  chains : List (List UpdateEntry)
  deletes : List DeleteEntry
  deriving DecidableEq, Repr

/-- Replace one column chain. -/
def setChain (st : UpdState) (col : Nat) (ch : List UpdateEntry) : UpdState :=
  { st with chains := st.chains.set col ch }

/-- Embedding of dataBlock.updateWithCoarseLock: under the handle write
lock, CheckNotDeleted, then CheckNotUpdated, then add a node to the
column chain and TryUpdate it, removing the node again if the update is
rejected. -/
def updateWithCoarseLock (st : UpdState) (txn : Txn) (row col : Nat) (v : Int) :
    Except Err UpdateEntry × UpdState :=
  match checkNotDeleted st.deletes row txn with
  | some e => (.error e, st)
  | none =>
    if wwUpdConflict (st.chains.getD col []) row txn then (.error .WWConflict, st)
    else
      if wwUpdConflict (st.chains.getD col []) row txn then (.error .WWConflict, st)
      else
        (.ok ⟨row, v, 0, false, txn.id, false⟩,
          setChain st col (⟨row, v, 0, false, txn.id, false⟩ :: st.chains.getD col []))

/-- Embedding of dataBlock.updateWithFineLock: under the handle read lock
plus the per-chain write lock, CheckNotDeleted, then add a node to the
column chain and TryUpdate it, removing the node again if the update is
rejected (no separate CheckNotUpdated pass). -/
def updateWithFineLock (st : UpdState) (txn : Txn) (row col : Nat) (v : Int) :
    Except Err UpdateEntry × UpdState :=
  match checkNotDeleted st.deletes row txn with
  | some e => (.error e, st)
  | none =>
    if wwUpdConflict (st.chains.getD col []) row txn then (.error .WWConflict, st)
    else
      (.ok ⟨row, v, 0, false, txn.id, false⟩,
        setChain st col (⟨row, v, 0, false, txn.id, false⟩ :: st.chains.getD col []))

/-- C4: the coarse-grained update path and the fine-grained update path
return the same result (the same installed node, or the same error among
NotFound and WWConflict) and leave the column chains and the delete chain
in the same state. -/
theorem update_coarse_fine_equiv (st : UpdState) (txn : Txn) (row col : Nat) (v : Int) :
    updateWithCoarseLock st txn row col v = updateWithFineLock st txn row col v := by
  rw [updateWithCoarseLock, updateWithFineLock]
  cases checkNotDeleted st.deletes row txn with
  | some e => rfl
  | none =>
    by_cases h : wwUpdConflict (st.chains.getD col []) row txn = true
    · rw [if_pos h, if_pos h]
    · rw [if_neg h, if_neg h]

/-- Embedding of dataBlock.blkGetByFilter with the immutable index's
Dedup answer abstracted as an input (nil, PossibleDuplicate, or another
error): a nil Dedup answer means the key is definitely absent and yields
NotFound; a PossibleDuplicate answer is resolved against the sorted PK
column and the delete chain; any other answer is returned as the result
error. -/
def blkGetByFilter (dedupAns : Option Err) (pkCol : List Int) (key : Int)
    (dels : List DeleteEntry) (ts : Nat) : Except Err Nat :=
  match dedupAns with
  | none => .error .NotFound
  | some e =>
    if e = .PossibleDuplicate then
      match pkCol.findIdx? (fun x => x == key) with
      | none => .error .NotFound
      | some offset => if isDeleted dels offset ts then .error .NotFound else .ok offset
    else .error e

/-- C7 counterexample: when Dedup answers with an error that is neither
nil nor PossibleDuplicate (here an I/O error), blkGetByFilter returns
that very error, not NotFound. -/
theorem blkGetByFilter_dedup_cex :
    blkGetByFilter (some .IOErr) [5] 5 [] 10 = .error .IOErr ∧
    Err.IOErr ≠ Err.NotFound := by
  exact ⟨rfl, by decide⟩

/-- C7 (amended): a non-nil Dedup answer other than PossibleDuplicate is
propagated unchanged by blkGetByFilter, and a nil Dedup answer (key
definitely absent) yields NotFound. -/
theorem blkGetByFilter_dedup_err (e : Err) (pkCol : List Int) (key : Int)
    (dels : List DeleteEntry) (ts : Nat) (he : e ≠ .PossibleDuplicate) :
    blkGetByFilter (some e) pkCol key dels ts = .error e ∧
    blkGetByFilter none pkCol key dels ts = .error .NotFound := by
  exact ⟨by rw [blkGetByFilter, if_neg he], rfl⟩

/-- C7 witness: the amended statement at a concrete I/O error. -/
theorem blkGetByFilter_dedup_err_witness :
    blkGetByFilter (some .IOErr) [5] 5 [] 10 = .error .IOErr ∧
    blkGetByFilter none [5] 5 [] 10 = .error .NotFound :=
  blkGetByFilter_dedup_err .IOErr [5] 5 [] 10 (by decide)

end Tables

namespace Tables

/-- The environment Destroy runs in: whether the ClosedState latch was
already taken, whether the block has an appendable node, an index, a
block file, and the error each closing step would report. -/
structure DestroyEnv where
  alreadyClosed : Bool
  hasNode : Bool
  nodeCloseErr : Option Err
  hasIndex : Bool
  indexDestroyErr : Option Err
  hasFile : Bool
  fileCloseErr : Option Err
  fileDestroyErr : Option Err
  deriving DecidableEq, Repr

/-- Which of Destroy's steps actually ran to completion. -/
structure DestroyTrace where
  colFilesReleased : Bool
  indexDestroyed : Bool
  fileClosed : Bool
  fileDestroyed : Bool
  deriving DecidableEq, Repr

/-- The trace before any step has run. -/
def noSteps : DestroyTrace := ⟨false, false, false, false⟩

/-- Embedding of dataBlock.Destroy: a failed TryClose returns nil at
once; then the appendable node is closed, the column file references are
released, the index is destroyed and the block file is closed and
destroyed, with each error returned immediately. -/
def Destroy (env : DestroyEnv) : Option Err × DestroyTrace :=
  if env.alreadyClosed then (none, noSteps)
  else
    match (if env.hasNode then env.nodeCloseErr else none) with
    | some e => (some e, noSteps)
    | none =>
      let t1 : DestroyTrace := { noSteps with colFilesReleased := true }
      match (if env.hasIndex then env.indexDestroyErr else none) with
      | some e => (some e, t1)
      | none =>
        let t2 : DestroyTrace := { t1 with indexDestroyed := env.hasIndex }
        match (if env.hasFile then env.fileCloseErr else none) with
        | some e => (some e, t2)
        | none =>
          let t3 : DestroyTrace := { t2 with fileClosed := env.hasFile }
          match (if env.hasFile then env.fileDestroyErr else none) with
          | some e => (some e, t3)
          | none => (none, { t3 with fileDestroyed := env.hasFile })

/-- C8 counterexample: when closing the appendable node reports an I/O
error, Destroy returns that error at once — it neither performs the
remaining steps (no column file release, no index destroy, no file
close or destroy) nor swallows the error. -/
theorem destroy_abort_cex :
    Destroy ⟨false, true, some .IOErr, true, none, true, none, none⟩ =
      (some .IOErr, noSteps) ∧
    noSteps.colFilesReleased = false ∧ noSteps.indexDestroyed = false ∧
    noSteps.fileClosed = false ∧ noSteps.fileDestroyed = false := by
  exact ⟨rfl, rfl, rfl, rfl, rfl⟩

/-- C8 (amended): an error from any of Destroy's closing steps is
propagated to the caller and aborts the remaining steps: a node-close
error leaves every later step undone; an index-destroy error aborts the
file close and destroy (the column file references having already been
released by then); a file-close error aborts the file destroy; and a
file-destroy error is propagated as well. -/
theorem destroy_abort_on_error (env : DestroyEnv) (e : Err)
    (hopen : env.alreadyClosed = false) :
    (env.hasNode = true → env.nodeCloseErr = some e →
      Destroy env = (some e, noSteps)) ∧
    ((env.hasNode = true → env.nodeCloseErr = none) → env.hasIndex = true →
      env.indexDestroyErr = some e →
      Destroy env = (some e, { noSteps with colFilesReleased := true })) ∧
    ((env.hasNode = true → env.nodeCloseErr = none) →
      (env.hasIndex = true → env.indexDestroyErr = none) →
      env.hasFile = true → env.fileCloseErr = some e →
      Destroy env = (some e, ⟨true, env.hasIndex, false, false⟩)) ∧
    ((env.hasNode = true → env.nodeCloseErr = none) →
      (env.hasIndex = true → env.indexDestroyErr = none) →
      env.hasFile = true → env.fileCloseErr = none → env.fileDestroyErr = some e →
      Destroy env = (some e, ⟨true, env.hasIndex, true, false⟩)) := by
  have hnn : (env.hasNode = true → env.nodeCloseErr = none) →
      (if env.hasNode then env.nodeCloseErr else none) = none := by
    intro hn
    by_cases h : env.hasNode = true
    · rw [if_pos h]; exact hn h
    · rw [if_neg h]
  have hii : (env.hasIndex = true → env.indexDestroyErr = none) →
      (if env.hasIndex then env.indexDestroyErr else none) = none := by
    intro hi
    by_cases h : env.hasIndex = true
    · rw [if_pos h]; exact hi h
    · rw [if_neg h]
  refine ⟨?_, ?_, ?_, ?_⟩
  · intro hn he
    rw [Destroy, if_neg (by simp [hopen]), if_pos hn, he]
  · intro hn hi he
    rw [Destroy, if_neg (by simp [hopen]), hnn hn, if_pos hi, he]
  · intro hn hi hf he
    rw [Destroy, if_neg (by simp [hopen]), hnn hn, hii hi, if_pos hf, he]
    rfl
  · intro hn hi hf hfc he
    have hcc : (if env.hasFile then env.fileCloseErr else none) = none := by
      rw [if_pos hf]; exact hfc
    rw [Destroy, if_neg (by simp [hopen]), hnn hn, hii hi, hcc, if_pos hf, he, hf]
    rfl

/-- C8 witness: the amended statement's four cases at concrete
environments, one per failing step. -/
theorem destroy_abort_on_error_witness :
    Destroy ⟨false, true, some .IOErr, true, none, true, none, none⟩ =
      (some .IOErr, noSteps) ∧
    Destroy ⟨false, true, none, true, some .IOErr, true, none, none⟩ =
      (some .IOErr, { noSteps with colFilesReleased := true }) ∧
    Destroy ⟨false, true, none, true, none, true, some .IOErr, none⟩ =
      (some .IOErr, ⟨true, true, false, false⟩) ∧
    Destroy ⟨false, true, none, true, none, true, none, some .IOErr⟩ =
      (some .IOErr, ⟨true, true, true, false⟩) :=
  ⟨(destroy_abort_on_error ⟨false, true, some .IOErr, true, none, true, none, none⟩
      .IOErr rfl).1 rfl rfl,
   (destroy_abort_on_error ⟨false, true, none, true, some .IOErr, true, none, none⟩
      .IOErr rfl).2.1 (fun _ => rfl) rfl rfl,
   (destroy_abort_on_error ⟨false, true, none, true, none, true, some .IOErr, none⟩
      .IOErr rfl).2.2.1 (fun _ => rfl) (fun _ => rfl) rfl rfl,
   (destroy_abort_on_error ⟨false, true, none, true, none, true, none, some .IOErr⟩
      .IOErr rfl).2.2.2 (fun _ => rfl) (fun _ => rfl) rfl rfl rfl⟩

end Tables

namespace Tables

/-- The on-disk state a block is reopened from: the commit-timestamp
watermark readTs, the sort (PK) column of the buffered rows, the base
columns, the per-column update masks with their values, and the delete
mask. -/
structure OnDisk where
  readTs : Nat
  pks : List Int
  cols : List (List Int)
  updates : List (List (Nat × Int))
  delRows : List Nat
  deriving DecidableEq, Repr

/-- Active map produced by upserting a key list from a start offset. -/
def upsertFrom : List Int → Nat → List (Int × Nat)
  | [], _ => []
  | k :: ks, i => (k, i) :: upsertFrom ks (i + 1)

/-- Modelled from the spec: MutableIndex.BatchUpsert of the indexwrapper
package (not under src/), applied from offset 0 with no previous state:
every key becomes active at its row offset. -/
def batchUpsert (keys : List Int) : PkIndex := ⟨upsertFrom keys 0, []⟩

/-- Modelled from the spec: MutableIndex.Delete(key, ts) of the
indexwrapper package (not under src/): the key leaves the active map and
gains a tombstone carrying ts. -/
def pkDelete (idx : PkIndex) (k : Int) (ts : Nat) : PkIndex :=
  ⟨idx.active.filter fun p => p.1 != k, (k, ts) :: idx.tombstones⟩

/-- The keys held active by a PK index. -/
def activeKeys (idx : PkIndex) : List Int := idx.active.map Prod.fst

/-- Embedding of the replay path of newBlock (ReplayIndex then
ReplayDelta) for an appendable single-PK block whose on-disk readTs is
positive: maxVisible and ckpTs are set to readTs; ReplayIndex
batch-upserts every PK of the buffer; ReplayDelta installs the on-disk
update masks as committed column nodes at ckpTs and the on-disk delete
mask as one merged committed delete node at ckpTs, whose application
removes each deleted row's PK from the active map and tombstones it at
ckpTs (the registered deletes listener ABlkApplyDelete). -/
def replayBlock (d : OnDisk) : DataBlock :=
  { appendable := true
    bufferCols := d.cols
    fileCols := d.cols
    chains := d.updates.map fun us => us.map fun p => ⟨p.1, p.2, d.readTs, true, 0, false⟩
    deletes := if d.delRows.isEmpty then [] else [⟨d.delRows, d.readTs, true, 0, false⟩]
    maxVisible := d.readTs
    ckpTs := d.readTs
    index := d.delRows.foldl (fun idx r => pkDelete idx (d.pks.getD r 0) d.readTs)
      (batchUpsert d.pks) }

lemma mem_upsertFrom {k0 : Int} {r0 : Nat} : ∀ {ks : List Int} {i : Nat},
    (k0, r0) ∈ upsertFrom ks i ↔ ∃ j, j < ks.length ∧ ks.getD j 0 = k0 ∧ r0 = i + j := by
  intro ks
  induction ks with
  | nil => intro i; simp [upsertFrom]
  | cons k ks ih =>
    intro i
    rw [upsertFrom]
    simp only [List.mem_cons, Prod.mk.injEq, List.length_cons, ih]
    constructor
    · rintro (⟨rfl, rfl⟩ | ⟨j, hj, hk, hr⟩)
      · exact ⟨0, by omega, by simp, by omega⟩
      · exact ⟨j + 1, by omega, by simpa using hk, by omega⟩
    · rintro ⟨j, hj, hk, hr⟩
      cases j with
      | zero => exact Or.inl ⟨by simpa using hk.symm, by omega⟩
      | succ j => exact Or.inr ⟨j, by omega, by simpa using hk, by omega⟩

lemma mem_active_foldl {α : Type} (f : α → Int) (ts : Nat) :
    ∀ (rs : List α) (idx : PkIndex) (p : Int × Nat),
    (p ∈ (rs.foldl (fun i r => pkDelete i (f r) ts) idx).active ↔
      p ∈ idx.active ∧ ∀ r ∈ rs, f r ≠ p.1) := by
  intro rs
  induction rs with
  | nil => intro idx p; simp
  | cons a rs ih =>
    intro idx p
    rw [List.foldl_cons, ih]
    simp only [pkDelete, List.mem_filter, bne_iff_ne, List.mem_cons]
    constructor
    · rintro ⟨⟨hp, hne⟩, hall⟩
      exact ⟨hp, fun r hr => hr.elim (fun h => h ▸ fun hh => hne hh.symm |>.elim)
        (fun h => hall r h)⟩
    · rintro ⟨hp, hall⟩
      exact ⟨⟨hp, fun hh => hall a (Or.inl rfl) hh.symm⟩, fun r hr => hall r (Or.inr hr)⟩

lemma tombstones_mono {α : Type} (f : α → Int) (ts : Nat) :
    ∀ (rs : List α) (idx : PkIndex) (p : Int × Nat), p ∈ idx.tombstones →
      p ∈ (rs.foldl (fun i r => pkDelete i (f r) ts) idx).tombstones := by
  intro rs
  induction rs with
  | nil => intro idx p h; exact h
  | cons a rs ih =>
    intro idx p h
    exact ih _ _ (List.mem_cons_of_mem _ h)

lemma mem_tombstones_foldl {α : Type} (f : α → Int) (ts : Nat) :
    ∀ (rs : List α) (idx : PkIndex) (r : α), r ∈ rs →
      (f r, ts) ∈ (rs.foldl (fun i x => pkDelete i (f x) ts) idx).tombstones := by
  intro rs
  induction rs with
  | nil => intro idx r hr; cases hr
  | cons a rs ih =>
    intro idx r hr
    rcases List.mem_cons.mp hr with rfl | h
    · exact tombstones_mono f ts rs _ _ (List.mem_cons_self _ _)
    · exact ih _ _ h

end Tables

namespace Tables

/-- C3: for an appendable block reopened from on-disk state with
readTs > 0 (distinct PKs, delete mask within bounds), after replay the
maxVisible watermark equals readTs; the PK index holds as active keys
exactly the PKs of rows not covered by the replayed delete mask, each
deleted PK being tombstoned at ckpTs; and GetValue on a replayed-deleted
row at any ts ≥ ckpTs returns NotFound. -/
theorem replay_spec (d : OnDisk) (hts : 0 < d.readTs) (hnodup : d.pks.Nodup)
    (hdel : ∀ r ∈ d.delRows, r < d.pks.length) :
    (replayBlock d).maxVisible = d.readTs ∧
    (∀ k : Int, k ∈ activeKeys (replayBlock d).index ↔
      ∃ r, r < d.pks.length ∧ d.pks.getD r 0 = k ∧ r ∉ d.delRows) ∧
    (∀ r ∈ d.delRows, (d.pks.getD r 0, d.readTs) ∈ (replayBlock d).index.tombstones) ∧
    (∀ r ∈ d.delRows, ∀ ts, d.readTs ≤ ts → ∀ c,
      GetValue (replayBlock d) ts r c = .error .NotFound) := by
  refine ⟨rfl, ?_, ?_, ?_⟩
  · intro k
    constructor
    · intro hk
      obtain ⟨p, hp, hpk⟩ := List.mem_map.mp hk
      obtain ⟨pk, pr⟩ := p
      obtain ⟨hp0, hnotd⟩ := (mem_active_foldl (fun r => d.pks.getD r 0) d.readTs
        d.delRows (batchUpsert d.pks) (pk, pr)).mp hp
      obtain ⟨j, hj, hkey, hoff⟩ := mem_upsertFrom.mp hp0
      refine ⟨j, hj, ?_, ?_⟩
      · rw [hkey]
        exact hpk
      · intro hjd
        exact hnotd j hjd hkey
    · rintro ⟨j, hj, hkey, hnd⟩
      refine List.mem_map.mpr ⟨(k, j), ?_, rfl⟩
      refine (mem_active_foldl (fun r => d.pks.getD r 0) d.readTs
        d.delRows (batchUpsert d.pks) (k, j)).mpr
        ⟨mem_upsertFrom.mpr ⟨j, hj, hkey, by omega⟩, ?_⟩
      intro r hr heq
      have hrlen := hdel r hr
      have hrj : r = j := by
        have hmm : d.pks[r] = d.pks[j] := by
          rw [← List.getD_eq_getElem _ 0 hrlen, ← List.getD_eq_getElem _ 0 hj, heq, hkey]
        exact hnodup.getElem_inj_iff.mp hmm
      exact hnd (hrj ▸ hr)
  · intro r hr
    exact mem_tombstones_foldl (fun x => d.pks.getD x 0) d.readTs
      d.delRows (batchUpsert d.pks) r hr
  · intro r hr ts hts' c
    have hne : d.delRows.isEmpty = false := by
      cases hd : d.delRows with
      | nil => rw [hd] at hr; cases hr
      | cons a l => rfl
    have hdel' : isDeleted (replayBlock d).deletes r ts = true := by
      show isDeleted (if d.delRows.isEmpty then []
        else [⟨d.delRows, d.readTs, true, 0, false⟩]) r ts = true
      rw [if_neg (by simp [hne])]
      simp [isDeleted, hts', hr]
    rw [GetValue, if_pos hdel']

/-- C3 witness: a block with two rows (PKs 1 and 2), one replayed update
on column 0 and a replayed delete of row 1, reopened at readTs = 100. -/
theorem replay_spec_witness :
    (replayBlock ⟨100, [1, 2], [[10, 20]], [[(0, 11)]], [1]⟩).maxVisible = 100 ∧
    (2, 100) ∈ (replayBlock ⟨100, [1, 2], [[10, 20]], [[(0, 11)]], [1]⟩).index.tombstones ∧
    GetValue (replayBlock ⟨100, [1, 2], [[10, 20]], [[(0, 11)]], [1]⟩) 150 1 0 =
      .error .NotFound ∧
    1 ∈ activeKeys (replayBlock ⟨100, [1, 2], [[10, 20]], [[(0, 11)]], [1]⟩).index := by
  have h := replay_spec ⟨100, [1, 2], [[10, 20]], [[(0, 11)]], [1]⟩
    (by decide) (by decide) (by decide)
  exact ⟨h.1, h.2.2.1 1 (by decide), h.2.2.2 1 (by decide) 150 (by decide) 0,
    (h.2.1 1).mpr ⟨0, by decide, by decide, by decide⟩⟩

end Tables
